import Mathlib

/-!
Verification of the Reliance-grn synchronization engine (src/app.py and
src/mbapp.py) against its natural-language specification.

Python strings are embedded as `List Char`, dictionaries as association
lists, the spreadsheet as a list of rows of `String` cells, and the
stateful per-item pipelines as explicit state-passing functions.
-/

set_option maxRecDepth 10000

namespace GrnSync

/-! ## Generic list utilities shared by several embeddings -/

/-- Intercalation of a separator between the pieces of a list, embedding
Python's `sep.join(pieces)`. -/
def joinList (sep : List Char) : List (List Char) → List Char
  | [] => []
  | [p] => p
  | p :: q :: rest => p ++ sep ++ joinList sep (q :: rest)

/-- Splitting a character list at every occurrence of `sep`, embedding
Python's `s.split(sep)` for a one-character separator (empty pieces kept,
`[""] ` on empty input). -/
def splitOnChar (sep : Char) : List Char → List (List Char)
  | [] => [[]]
  | c :: rest =>
      if c = sep then [] :: splitOnChar sep rest
      else
        match splitOnChar sep rest with
        | [] => [[c]]
        | g :: gs => (c :: g) :: gs

/-- Characters treated as whitespace by Python's `str.strip()` (the ASCII
ones; the sources only ever strip ASCII keyword lists). -/
def isPySpace (c : Char) : Bool :=
  c = ' ' || c = '\t' || c = '\n' || c = '\r' || c = Char.ofNat 11 || c = Char.ofNat 12

/-- Embedding of Python's `s.strip()`: drop leading and trailing whitespace. -/
def pyStrip (l : List Char) : List Char :=
  ((l.dropWhile isPySpace).reverse.dropWhile isPySpace).reverse

/-- Index of the first occurrence of `k`, embedding Python's `list.index`
(`none` embeds the `ValueError` path). -/
def idxOfKey (k : String) : List String → Option Nat
  | [] => none
  | h :: t => if h = k then some 0 else (idxOfKey k t).map (· + 1)

/-- The new elements of `l` not already in `acc`, first occurrences, in
encounter order (the accumulator grows as elements are taken). -/
def appendNew (acc : List String) : List String → List String
  | [] => []
  | h :: t => if h ∈ acc then appendNew acc t else h :: appendNew (acc ++ [h]) t

/-- First-occurrence deduplication: one possible iteration order of a
Python set built from `l` (insertion order). -/
def firstDedup (l : List String) : List String := appendNew [] l

/-! ## Filename sanitization (`_sanitize_filename`, app.py 445-457 /
mbapp.py 461-473) -/

/-- The characters the sanitizer replaces, from the regex `[<>:"/\\|?*]`. -/
def forbiddenChars : List Char := ['<', '>', ':', '"', '/', '\\', '|', '?', '*']

/-- Embedding of `re.sub(r'[<>:"/\\|?*]', '_', filename)`. -/
def replaceForbidden (l : List Char) : List Char :=
  l.map (fun c => if c ∈ forbiddenChars then '_' else c)

/-- Embedding of `_sanitize_filename`: replace forbidden characters by `_`;
if the cleaned name exceeds 100 characters, split on `.`; with at least two
parts keep the first 95 characters of the dot-joined base plus `.` plus the
last part, otherwise truncate to 100 characters. -/
def sanitizeFilename (filename : List Char) : List Char :=
  let cleaned := replaceForbidden filename
  if 100 < cleaned.length then
    let parts := splitOnChar '.' cleaned
    if 1 < parts.length then
      let ext := parts.getLastD []
      let base := joinList ['.'] parts.dropLast
      base.take 95 ++ '.' :: ext
    else
      cleaned.take 100
  else cleaned

/-! ## Header range letter encoding (`_update_headers`, app.py 716-732) -/

/-- Embedding of the end-column character `chr(64 + len(headers))` used in
the range `f"{sheet_name}!A1:{chr(64 + len(headers))}1"`. -/
def updateRangeEnd (n : Nat) : Char := Char.ofNat (64 + n)

/-- The full update range string built by `_update_headers`. -/
def updateRange (sheetName : List Char) (n : Nat) : List Char :=
  sheetName ++ ("!A1:".toList) ++ [updateRangeEnd n] ++ ['1']

/-- Modelled from the spec: correct bijective base-26 column letters
(1 ↦ "A", 26 ↦ "Z", 27 ↦ "AA", ...), the multi-letter addressing the spec
requires; fuel-based recursion (`n` itself is enough fuel). -/
def specColLettersAux : Nat → Nat → List Char
  | 0, _ => []
  | fuel + 1, n =>
      if n = 0 then []
      else specColLettersAux fuel ((n - 1) / 26) ++ [Char.ofNat (65 + ((n - 1) % 26))]

/-- Modelled from the spec: the column label for 1-indexed column `n`. -/
def specColLetters (n : Nat) : List Char := specColLettersAux n n

/-! ## Temporary file lifecycle around extraction (app.py 562-568 /
mbapp.py 601-607)

The Python block is
`with NamedTemporaryFile(suffix='.pdf', delete=False) as f: f.write(data);
path = f.name` followed by `result = agent.extract(path)` and
`os.unlink(path)`. Because `delete=False` is passed and `os.unlink` sits
after the extraction call with no `try/finally`, the unlink statement is
reached only when `agent.extract` returns normally. The embedding threads
the file-system fact "the temp file still exists" (`Bool`) through the
straight-line code, with the external call's outcome as an `Except`. -/

/-- Embedding of the write-temp / extract / unlink sequence: returns the
extraction outcome together with whether the temporary file still exists
afterwards. On the error path the unlink is never reached. -/
def extractWithTemp {α : Type} (agentExtract : Except String α) :
    Except String α × Bool :=
  match agentExtract with
  | Except.error e => (Except.error e, true)
  | Except.ok d => (Except.ok d, false)

/-! ## Lemmas about the string utilities -/

theorem splitOnChar_ne_nil (sep : Char) (l : List Char) : splitOnChar sep l ≠ [] := by
  cases l with
  | nil => simp [splitOnChar]
  | cons c rest =>
      simp only [splitOnChar]
      split
      · simp
      · split <;> simp

theorem splitOnChar_cons_self (sep : Char) (rest : List Char) :
    splitOnChar sep (sep :: rest) = [] :: splitOnChar sep rest := by
  simp [splitOnChar]

theorem splitOnChar_cons_ne (sep c : Char) (rest : List Char) (g : List Char)
    (gs : List (List Char)) (hc : ¬ c = sep) (hgs : splitOnChar sep rest = g :: gs) :
    splitOnChar sep (c :: rest) = (c :: g) :: gs := by
  simp [splitOnChar, hc, hgs]

theorem joinList_cons_of_ne_nil (sep : List Char) (p : List Char) (t : List (List Char))
    (h : t ≠ []) : joinList sep (p :: t) = p ++ sep ++ joinList sep t := by
  cases t with
  | nil => exact absurd rfl h
  | cons q rest => rfl

theorem joinList_splitOnChar (sep : Char) (l : List Char) :
    joinList [sep] (splitOnChar sep l) = l := by
  induction l with
  | nil => rfl
  | cons c rest ih =>
      by_cases hc : c = sep
      · subst hc
        rw [splitOnChar_cons_self,
          joinList_cons_of_ne_nil _ _ _ (splitOnChar_ne_nil c rest)]
        simp [ih]
      · obtain ⟨g, gs, hgs⟩ := List.exists_cons_of_ne_nil (splitOnChar_ne_nil sep rest)
        rw [splitOnChar_cons_ne sep c rest g gs hc hgs]
        rw [hgs] at ih
        cases gs with
        | nil => simpa [joinList] using congrArg (c :: ·) ih
        | cons g' gs' =>
            rw [joinList_cons_of_ne_nil _ _ _ (by simp)] at ih ⊢
            rw [← ih]
            simp

theorem sep_not_mem_splitOnChar (sep : Char) (l : List Char) :
    ∀ p ∈ splitOnChar sep l, sep ∉ p := by
  induction l with
  | nil => intro p hp; simp [splitOnChar] at hp; simp [hp]
  | cons c rest ih =>
      intro p hp
      by_cases hc : c = sep
      · subst hc
        rw [splitOnChar_cons_self] at hp
        rcases List.mem_cons.mp hp with rfl | hp
        · simp
        · exact ih p hp
      · obtain ⟨g, gs, hgs⟩ := List.exists_cons_of_ne_nil (splitOnChar_ne_nil sep rest)
        rw [splitOnChar_cons_ne sep c rest g gs hc hgs] at hp
        rcases List.mem_cons.mp hp with rfl | hp
        · intro hmem
          rcases List.mem_cons.mp hmem with rfl | hmem
          · exact hc rfl
          · exact ih g (by rw [hgs]; exact List.mem_cons_self g gs) hmem
        · exact ih p (by rw [hgs]; exact List.mem_cons_of_mem g hp)

theorem one_lt_splitOnChar_length_iff (sep : Char) (l : List Char) :
    1 < (splitOnChar sep l).length ↔ sep ∈ l := by
  induction l with
  | nil => simp [splitOnChar]
  | cons c rest ih =>
      by_cases hc : c = sep
      · subst hc
        rw [splitOnChar_cons_self]
        simp only [List.length_cons, List.mem_cons]
        have hlen : 0 < (splitOnChar c rest).length :=
          List.length_pos.mpr (splitOnChar_ne_nil c rest)
        constructor
        · intro _; exact Or.inl trivial
        · intro _; omega
      · obtain ⟨g, gs, hgs⟩ := List.exists_cons_of_ne_nil (splitOnChar_ne_nil sep rest)
        rw [splitOnChar_cons_ne sep c rest g gs hc hgs]
        rw [hgs] at ih
        simp only [List.length_cons, List.mem_cons] at ih ⊢
        constructor
        · intro h; right; exact ih.mp h
        · intro h
          rcases h with h | h
          · exact absurd h.symm hc
          · exact ih.mpr h

theorem getLastD_irrel {α : Type} (t : List α) (a b : α) (h : t ≠ []) :
    t.getLastD a = t.getLastD b := by
  cases t with
  | nil => exact absurd rfl h
  | cons x xs => rfl

theorem getLastD_mem_of_ne_nil {α : Type} (l : List α) (d : α) (h : l ≠ []) :
    l.getLastD d ∈ l := by
  induction l generalizing d with
  | nil => exact absurd rfl h
  | cons x xs ih =>
      cases xs with
      | nil => simp [List.getLastD]
      | cons y ys =>
          have hx : (x :: y :: ys).getLastD d = (y :: ys).getLastD x := rfl
          rw [hx]
          exact List.mem_cons_of_mem x (ih x (by simp))

theorem joinList_dropLast_decomp (sep : Char) (parts : List (List Char))
    (h : 1 < parts.length) :
    joinList [sep] parts = joinList [sep] parts.dropLast ++ sep :: parts.getLastD [] := by
  induction parts with
  | nil => simp at h
  | cons p rest ih =>
      cases rest with
      | nil => simp at h
      | cons q rest' =>
          cases rest' with
          | nil => simp [joinList, List.getLastD]
          | cons r rest'' =>
              have h2 : 1 < (q :: r :: rest'').length := by simp
              have hd : (p :: q :: r :: rest'').dropLast = p :: (q :: r :: rest'').dropLast := by
                simp
              rw [joinList_cons_of_ne_nil _ _ _ (by simp), ih h2, hd,
                joinList_cons_of_ne_nil _ _ _ (by simp [List.dropLast])]
              have hlast : (p :: q :: r :: rest'').getLastD [] = (q :: r :: rest'').getLastD [] := by
                have h1 : (p :: q :: r :: rest'').getLastD [] = (q :: r :: rest'').getLastD p := rfl
                rw [h1, getLastD_irrel _ p [] (by simp)]
              rw [hlast]
              simp

/-- Decomposition of a character list at its last separator occurrence. -/
theorem splitOnChar_decomp (sep : Char) (l : List Char) (h : sep ∈ l) :
    l = joinList [sep] (splitOnChar sep l).dropLast ++
      sep :: (splitOnChar sep l).getLastD [] := by
  conv_lhs => rw [← joinList_splitOnChar sep l]
  exact joinList_dropLast_decomp sep _ ((one_lt_splitOnChar_length_iff sep l).mpr h)

theorem replaceForbidden_clean (l : List Char) :
    ∀ c ∈ replaceForbidden l, c ∉ forbiddenChars := by
  intro c hc
  rcases List.mem_map.mp hc with ⟨a, _, rfl⟩
  by_cases ha : a ∈ forbiddenChars
  · simp only [if_pos ha]
    decide
  · simp only [if_neg ha]
    exact ha

/-! ## Claim C6 -/

/-- C6: the header-update step overwrites row 1 with a range spanning
`n` columns, claimed to be correctly letter-encoded for every `n`,
including `n > 26`. The code computes `chr(64 + n)`: correct for
`n ≤ 26` (for example `26 ↦ 'Z'`), but for `n = 27` it yields `'['`,
not the correct multi-letter label `"AA"`; the produced range
`"{sheet}!A1:[1"` is not a valid A1 range. This theorem evaluates the
code's encoding at the failing input `n = 27` next to the spec's
bijective base-26 encoding. -/
theorem updateHeaders_column_letter_overflow :
    updateRangeEnd 26 = 'Z' ∧ specColLetters 26 = ['Z'] ∧
    updateRangeEnd 27 = '[' ∧ specColLetters 27 = ['A', 'A'] ∧
    [updateRangeEnd 27] ≠ specColLetters 27 ∧
    updateRange [] 27 = ("!A1:[1".toList) := by
  decide

/-! ## Claim C7 -/

/-- C7 counterexample: the claim says the temporary file is deleted on
every exit path of the extraction step, including when the external
extraction call raises. At the concrete input where `agent.extract`
raises, the embedded step leaves the temporary file in place (the
`os.unlink` after the call is never reached and `delete=False` was
passed), refuting the claim. -/
theorem extractWithTemp_leak_on_error :
    (extractWithTemp (Except.error "agent.extract raised" : Except String Nat)).2 = true :=
  rfl

/-- C7 amended: the temporary file is deleted when the external
extraction call returns normally, and is NOT deleted (it leaks) when the
call raises an exception. -/
theorem extractWithTemp_cleanup (α : Type) (d : α) (e : String) :
    (extractWithTemp (Except.ok d)).2 = false ∧
    (extractWithTemp (Except.error e : Except String α)).2 = true :=
  ⟨rfl, rfl⟩

/-! ## Claim C8 -/

/-- C8 amended: `_sanitize_filename` returns a name with none of the
characters `< > : " / \ | ? *` (each is replaced by `_`). When the
cleaned name is at most 100 characters it is returned unchanged. When it
exceeds 100 characters and contains no `.`, the result is truncated to
exactly 100 characters. When it exceeds 100 characters and contains a
`.`, the result is the first 95 characters of the base followed by `.`
and the (intact) final extension — of length at most
`96 + extension-length`, which exceeds 100 whenever the final extension
is longer than 4 characters (the claim's unconditional 100-character
bound fails there). -/
theorem sanitizeFilename_spec (filename : List Char) :
    (∀ c ∈ sanitizeFilename filename, c ∉ forbiddenChars) ∧
    ((replaceForbidden filename).length ≤ 100 →
        sanitizeFilename filename = replaceForbidden filename) ∧
    (100 < (replaceForbidden filename).length → '.' ∉ replaceForbidden filename →
        (sanitizeFilename filename).length = 100) ∧
    (100 < (replaceForbidden filename).length → '.' ∈ replaceForbidden filename →
        ∃ ext base,
          sanitizeFilename filename = base.take 95 ++ '.' :: ext ∧
          replaceForbidden filename = base ++ '.' :: ext ∧
          '.' ∉ ext ∧
          (sanitizeFilename filename).length ≤ 96 + ext.length) := by
  have hA : (replaceForbidden filename).length ≤ 100 →
      sanitizeFilename filename = replaceForbidden filename := by
    intro h
    simp [sanitizeFilename, Nat.not_lt.mpr h]
  have hB : 100 < (replaceForbidden filename).length →
      ¬ 1 < (splitOnChar '.' (replaceForbidden filename)).length →
      sanitizeFilename filename = (replaceForbidden filename).take 100 := by
    intro h1 h2
    simp [sanitizeFilename, h1, h2]
  have hC : 100 < (replaceForbidden filename).length →
      1 < (splitOnChar '.' (replaceForbidden filename)).length →
      sanitizeFilename filename =
        (joinList ['.'] (splitOnChar '.' (replaceForbidden filename)).dropLast).take 95 ++
          '.' :: (splitOnChar '.' (replaceForbidden filename)).getLastD [] := by
    intro h1 h2
    simp [sanitizeFilename, h1, h2]
  have hclean := replaceForbidden_clean filename
  refine ⟨?_, hA, ?_, ?_⟩
  · by_cases h100 : 100 < (replaceForbidden filename).length
    · by_cases hp : 1 < (splitOnChar '.' (replaceForbidden filename)).length
      · have hdot : '.' ∈ replaceForbidden filename :=
          (one_lt_splitOnChar_length_iff '.' _).mp hp
        have hdec := splitOnChar_decomp '.' (replaceForbidden filename) hdot
        rw [hC h100 hp]
        intro c hc
        rcases List.mem_append.mp hc with hc | hc
        · exact hclean c (hdec ▸ List.mem_append_left _ (List.mem_of_mem_take hc))
        · rcases List.mem_cons.mp hc with rfl | hc
          · decide
          · exact hclean c (hdec ▸ List.mem_append_right _ (List.mem_cons_of_mem '.' hc))
      · rw [hB h100 hp]
        intro c hc
        exact hclean c (List.mem_of_mem_take hc)
    · rw [hA (Nat.not_lt.mp h100)]
      exact hclean
  · intro h1 h2
    have hp : ¬ 1 < (splitOnChar '.' (replaceForbidden filename)).length := by
      intro hp
      exact h2 ((one_lt_splitOnChar_length_iff '.' _).mp hp)
    rw [hB h1 hp]
    rw [List.length_take]
    omega
  · intro h1 h2
    have hp : 1 < (splitOnChar '.' (replaceForbidden filename)).length :=
      (one_lt_splitOnChar_length_iff '.' _).mpr h2
    have hdec := splitOnChar_decomp '.' (replaceForbidden filename) h2
    refine ⟨(splitOnChar '.' (replaceForbidden filename)).getLastD [],
      joinList ['.'] (splitOnChar '.' (replaceForbidden filename)).dropLast,
      hC h1 hp, hdec, ?_, ?_⟩
    · exact sep_not_mem_splitOnChar '.' (replaceForbidden filename) _
        (getLastD_mem_of_ne_nil _ [] (splitOnChar_ne_nil '.' _))
    · rw [hC h1 hp]
      rw [List.length_append, List.length_cons, List.length_take]
      omega

/-- Concrete 121-character filename whose final extension has 10
characters: 110 copies of `a`, a dot, then `abcdefghij`. -/
def c8cexName : List Char := List.replicate 110 'a' ++ '.' :: ("abcdefghij".toList)

/-- C8 counterexample: for this filename the cleaned name exceeds 100
characters, yet the sanitized result has 106 characters — the claimed
100-character bound fails (the final extension is 10 characters long, so
`base[:95] + '.' + ext` has `95 + 1 + 10` characters). -/
theorem sanitizeFilename_length_counterexample :
    100 < (replaceForbidden c8cexName).length ∧
    ¬ (sanitizeFilename c8cexName).length ≤ 100 ∧
    (sanitizeFilename c8cexName).length = 106 := by
  decide

/-- C8 witness: the amended theorem applied at the concrete filename
`c8cexName`, discharging both hypotheses by computation. -/
theorem sanitizeFilename_spec_witness :
    ∃ ext base,
      sanitizeFilename c8cexName = base.take 95 ++ '.' :: ext ∧
      replaceForbidden c8cexName = base ++ '.' :: ext ∧
      '.' ∉ ext ∧
      (sanitizeFilename c8cexName).length ≤ 96 + ext.length :=
  (sanitizeFilename_spec c8cexName).2.2.2 (by decide) (by decide)

/-! ## Gmail search query (`search_emails`, app.py 189-206 / mbapp.py 181-204) -/

/-- Embedding of the Python f-string `f'"{k}"'`. -/
def quoteChars (k : List Char) : List Char := '"' :: k ++ ['"']

/-- Embedding of the `query_parts` list built by `search_emails`:
`["has:attachment"]`, then `from:"sender"` when a sender is given, then
the keyword clause (comma-split OR-disjunction, single quoted phrase, or
nothing), then the `after:` date clause. The formatted date string is a
parameter. -/
def gmailQueryParts (sender searchTerm dateStr : List Char) : List (List Char) :=
  let q0 : List (List Char) := [("has:attachment".toList)]
  let q1 := if sender ≠ [] then q0 ++ [("from:".toList) ++ quoteChars sender] else q0
  let q2 :=
    if searchTerm ≠ [] then
      if ',' ∈ searchTerm then
        let keywords := (splitOnChar ',' searchTerm).map pyStrip
        let kq := joinList (" OR ".toList) ((keywords.filter (fun k => k ≠ [])).map quoteChars)
        if kq ≠ [] then q1 ++ ['(' :: (kq ++ [')'])] else q1
      else q1 ++ [quoteChars searchTerm]
    else q1
  q2 ++ [("after:".toList) ++ dateStr]

/-- The final query string: `" ".join(query_parts)`. -/
def gmailQuery (sender searchTerm dateStr : List Char) : List Char :=
  joinList [' '] (gmailQueryParts sender searchTerm dateStr)

/-- Modelled from the spec: the keyword clause as the claim describes it —
a comma-containing expression is split on commas, terms trimmed, empty
terms dropped, and the rest joined as a parenthesized OR-disjunction of
quoted terms; a comma-free non-empty expression is a single quoted
phrase; an empty expression contributes nothing. -/
def specKeywordParts (searchTerm : List Char) : List (List Char) :=
  if searchTerm = [] then []
  else if ',' ∈ searchTerm then
    let terms := ((splitOnChar ',' searchTerm).map pyStrip).filter (fun t => t ≠ [])
    if terms = [] then []
    else ['(' :: (joinList (" OR ".toList) (terms.map quoteChars) ++ [')'])]
  else [quoteChars searchTerm]

theorem joinList_quote_eq_nil_iff (sep : List Char) (l : List (List Char)) :
    joinList sep (l.map quoteChars) = [] ↔ l = [] := by
  cases l with
  | nil => simp [joinList]
  | cons p t =>
      cases t with
      | nil => simp [joinList, quoteChars]
      | cons q t' => simp [joinList, quoteChars]

/-! ### Claim C9 -/

/-- C9: the keyword clause of the Gmail search query is exactly as the
claim describes: for a comma-containing expression, split on commas, trim
each term, drop empty terms, and wrap the remaining quoted terms in a
parenthesized OR-disjunction; a comma-free non-empty expression becomes a
single quoted phrase; an empty expression contributes no keyword clause.
The query parts are the base clause, the optional sender clause, the
keyword clause, and the date clause, in that order. -/
theorem gmailQuery_keyword_clause (sender searchTerm dateStr : List Char) :
    gmailQueryParts sender searchTerm dateStr =
      [("has:attachment".toList)] ++
      (if sender ≠ [] then [("from:".toList) ++ quoteChars sender] else []) ++
      specKeywordParts searchTerm ++
      [("after:".toList) ++ dateStr] := by
  have hiff := joinList_quote_eq_nil_iff (" OR ".toList)
    (((splitOnChar ',' searchTerm).map pyStrip).filter (fun t => t ≠ []))
  simp only [gmailQueryParts, specKeywordParts]
  split_ifs <;> simp_all [List.append_assoc]
  all_goals
    rename_i hex _ hall
    obtain ⟨x, hx, hnx⟩ := hex
    exact hnx (hall x hx)

example :
    gmailQueryParts [] ("grn, invoice".toList) ("2025/09/01".toList) =
      [("has:attachment".toList),
       ("(\"grn\" OR \"invoice\")".toList),
       ("after:2025/09/01".toList)] := by decide

example :
    gmailQueryParts [] ("grn".toList) ("2025/09/01".toList) =
      [("has:attachment".toList),
       ("\"grn\"".toList),
       ("after:2025/09/01".toList)] := by decide

/-! ## mbapp invoice-skip logic (`process_gmail_workflow`, mbapp.py 273-318)

The per-email loop first truncates the subject to 50 characters
(`subject = email_details.get('subject', 'No Subject')[:50]`), then runs
`re.search(r'against Inv: (\S+)', subject)` and skips the email when the
captured group contains `/`. -/

/-- The literal part of the regex, 13 characters. -/
def invPattern : List Char := "against Inv: ".toList

/-- Does `against Inv: (\S+)` match starting exactly at the head of `l`? -/
def invMatchAt (l : List Char) : Bool :=
  decide (l.take 13 = invPattern) &&
    (match l.drop 13 with
     | [] => false
     | d :: _ => !isPySpace d)

/-- Embedding of `re.search(r'against Inv: (\S+)', s)`: the earliest
position where the literal is followed by at least one non-space
character wins; the captured group is the maximal non-space run there. -/
def findInvToken : List Char → Option (List Char)
  | [] => none
  | c :: rest =>
      if invMatchAt (c :: rest) then
        some (((c :: rest).drop 13).takeWhile (fun d => !isPySpace d))
      else findInvToken rest

/-- The skip predicate of mbapp.py 287-293, applied by the code to the
50-character-truncated subject. -/
def shouldSkipInvoice (subject : List Char) : Bool :=
  match findInvToken subject with
  | some tok => '/' ∈ tok
  | none => false

/-- An email as the Gmail loop sees it: its id, subject, and the
flattened attachment filenames of its payload. -/
structure Email where
  id : String
  subject : List Char
  attachments : List (List Char)
  deriving DecidableEq

/-- The state the Gmail workflow mutates: the set of files uploaded to
Drive (by sanitized name) and the processed-email id set. -/
structure GmailState where
  uploads : List (List Char)
  processedEmails : List String
  deriving DecidableEq

/-- One attachment leaf of `_extract_attachments_from_email`: sanitize
the filename, skip when a file of that name already exists in the
folder, otherwise upload it; the count is 1 exactly when an upload
happened. -/
def uploadAttachment (uploads : List (List Char)) (filename : List Char) :
    List (List Char) × Nat :=
  let clean := sanitizeFilename filename
  if clean ∈ uploads then (uploads, 0) else (uploads ++ [clean], 1)

/-- All attachment parts of one email, in order. -/
def uploadAttachments (uploads : List (List Char)) :
    List (List Char) → List (List Char) × Nat
  | [] => (uploads, 0)
  | f :: fs =>
      let p1 := uploadAttachment uploads f
      let p2 := uploadAttachments p1.1 fs
      (p2.1, p1.2 + p2.2)

/-- One iteration of the email loop of mbapp's `process_gmail_workflow`:
skip already-processed ids; skip (`continue`) when the truncated subject
matches `against Inv: (\S+)` with a `/` in the captured group; otherwise
upload the attachments and mark the email processed exactly when at
least one attachment was uploaded. -/
def gmailStep (st : GmailState) (e : Email) : GmailState :=
  if e.id ∈ st.processedEmails then st
  else if shouldSkipInvoice (e.subject.take 50) then st
  else
    let p := uploadAttachments st.uploads e.attachments
    if 0 < p.2 then
      { uploads := p.1, processedEmails := st.processedEmails ++ [e.id] }
    else
      { uploads := p.1, processedEmails := st.processedEmails }

/-- Modelled from the claim: the (full) subject contains
`against Inv: ` followed by a non-space token that contains `/`. -/
def subjectMentionsSlashInvoice (subject : List Char) : Prop :=
  ∃ pre tok post, subject = pre ++ invPattern ++ tok ++ post ∧
    tok ≠ [] ∧ (∀ c ∈ tok, ¬ isPySpace c = true) ∧ '/' ∈ tok

/-! ### Claim C10 -/

/-- Subject whose slash-bearing invoice number starts at position 50:
37 `x`s followed by `against Inv: AB/CD` (55 characters in all; the
truncated prefix of 50 characters ends right after the colon-space). -/
def c10Subject : List Char := List.replicate 37 'x' ++ ("against Inv: AB/CD".toList)

/-- The email built on that subject, with one fresh attachment. -/
def c10Email : Email :=
  { id := "e1", subject := c10Subject, attachments := [("doc.pdf".toList)] }

/-- The state after the Gmail loop handles `c10Email` from an empty
state. -/
def c10Run : GmailState := gmailStep ⟨[], []⟩ c10Email

/-- C10 counterexample: this email's full subject does contain
`against Inv: ` followed by a non-space token containing `/`, yet the
step does not skip it — its attachment is uploaded and its id is added
to the processed set — because the code matches the regex against the
subject truncated to 50 characters, which cuts the invoice token off. -/
theorem gmail_invoice_skip_counterexample :
    subjectMentionsSlashInvoice c10Subject ∧
    c10Run.processedEmails = ["e1"] ∧
    c10Run.uploads = [("doc.pdf".toList)] := by
  refine ⟨⟨List.replicate 37 'x', ("AB/CD".toList), [], ?_, ?_, ?_, ?_⟩, ?_, ?_⟩ <;> decide

/-- C10 amended: the skip is decided on the 50-character-truncated
subject: whenever the truncated subject's earliest
`against Inv: (\S+)` match captures a token containing `/`, the email is
skipped entirely — no attachment is downloaded or uploaded and its id is
not added to the processed set (the whole state is unchanged). -/
theorem gmailStep_skip_on_truncated_match (st : GmailState) (e : Email)
    (h : shouldSkipInvoice (e.subject.take 50) = true) :
    gmailStep st e = st := by
  by_cases h1 : e.id ∈ st.processedEmails
  · simp [gmailStep, h1]
  · simp [gmailStep, h1, h]

/-- A short subject the truncated match does catch. -/
def c10SkipEmail : Email :=
  { id := "e2", subject := ("against Inv: A/B".toList),
    attachments := [("a.pdf".toList)] }

/-- C10 witness: the amended theorem applied at a concrete email whose
truncated subject matches with a slash, discharging the hypothesis by
computation. -/
theorem gmailStep_skip_witness :
    gmailStep ⟨[("old.pdf".toList)], ["e0"]⟩ c10SkipEmail =
      ⟨[("old.pdf".toList)], ["e0"]⟩ :=
  gmailStep_skip_on_truncated_match ⟨[("old.pdf".toList)], ["e0"]⟩ c10SkipEmail (by decide)

/-! ## Rows and the extraction payload (`_process_extracted_data`,
app.py 637-670) -/

/-- A Python dict row: an association list with unique keys, in
insertion order. -/
abbrev Row := List (String × String)

/-- The keys of a row, in order (`row.keys()`). -/
def rowKeys (r : Row) : List String := r.map Prod.fst

/-- `row.get(k, "")`: the value at the first matching key, `""` when
absent. -/
def rowGet : Row → String → String
  | [], _ => ""
  | (k', v) :: t, k => if k' = k then v else rowGet t k

/-- Python dict assignment `row[k] = v`: overwrite in place when the key
exists, append otherwise. -/
def rowSet : Row → String → String → Row
  | [], k, v => [(k, v)]
  | (k', v') :: t, k, v => if k' = k then (k, v) :: t else (k', v') :: rowSet t k v

/-- First value present among the alternatives (`k in data` probe). -/
def lookupVal : List (String × String) → String → Option String
  | [], _ => none
  | (k', v) :: t, k => if k' = k then some v else lookupVal t k

/-- Embedding of `_get_value(data, possible_keys, default="")`. -/
def getValue (data : List (String × String)) : List String → String
  | [] => ""
  | k :: ks =>
      match lookupVal data k with
      | some v => v
      | none => getValue data ks

/-- The extraction payload: the optional `"items"` list and the
top-level scalar fields the enrichment reads (empty values modelled as
`""`, which also stands for Python `None`). -/
structure Payload where
  items : Option (List Row)
  fields : List (String × String)
  deriving DecidableEq

/-- The per-item enrichment of `_process_extracted_data`: the document
level fields are injected in the order the code assigns them. -/
def enrichItem (fields : List (String × String)) (fileName fileId now : String)
    (item : Row) : Row :=
  let r1 := rowSet item "po_number"
    (getValue fields ["po_number", "purchase_order_number", "PO No"])
  let r2 := rowSet r1 "vendor_invoice_number"
    (getValue fields ["vendor_invoice_number", "invoice_number", "inv_no", "Invoice No"])
  let r3 := rowSet r2 "supplier" (getValue fields ["Supplier Name", "supplier", "vendor"])
  let r4 := rowSet r3 "shipping_address"
    (getValue fields ["delivery_address", "shipping_address", "receiver_address"])
  let r5 := rowSet r4 "grn_date" (getValue fields ["grn_date", "delivered_on"])
  let r6 := rowSet r5 "grn_number" (getValue fields ["grn_number"])
  let r7 := rowSet r6 "source_file" fileName
  let r8 := rowSet r7 "processed_date" now
  rowSet r8 "drive_file_id" fileId

/-- The cleaning pass: `{k: v for k, v in item.items() if v not in ["", None]}`. -/
def cleanRow (r : Row) : Row := r.filter (fun kv => kv.2 ≠ "")

/-- Embedding of `_process_extracted_data`: no `"items"` key gives zero
rows (with a warning); otherwise every item is enriched and cleaned. -/
def processExtractedData (p : Payload) (fileName fileId now : String) : List Row :=
  match p.items with
  | none => []
  | some items => (items.map (enrichItem p.fields fileName fileId now)).map cleanRow

/-! ## The sheet model (`_save_to_sheets` and helpers, app.py 672-845) -/

/-- A sheet as `values().get` returns it: the list of rows, each a list
of cell strings. -/
abbrev SheetValues := List (List String)

/-- The header row of the sheet (row 1); empty for an empty sheet. -/
def row1 (values : SheetValues) : List String := values.headD []

/-- Embedding of `_get_sheet_headers`: the fetch is bounded to the range
`A1:Z1`, so at most the first 26 header cells are seen. -/
def getSheetHeaders (values : SheetValues) : List String := (values.headD []).take 26

/-- Embedding of the header reconciliation in `_save_to_sheets`
(lines 681-690): with existing headers, append each new header not
already present; with none, the new headers become the header list. -/
def reconcileHeaders (existing newH : List String) : List String :=
  if existing = [] then newH
  else newH.foldl (fun acc h => if h ∈ acc then acc else acc ++ [h]) existing

/-- Writing `headers` into row 1 over a range of `headers.length`
columns: cells beyond the range keep their old values; on an empty sheet
the row is created. -/
def updateRow1 (values : SheetValues) (headers : List String) : SheetValues :=
  match values with
  | [] => [headers]
  | r :: rest => (headers ++ r.drop headers.length) :: rest

/-- Embedding of `_update_headers`: the update range ends at column
`chr(64 + n)`, which is a valid column letter only for `n ≤ 26`; beyond
that the range is invalid, the API call raises, the exception is caught
and the sheet is left unchanged (the function returns `False`, which the
caller ignores). -/
def updateHeadersOp (values : SheetValues) (headers : List String) : SheetValues :=
  if headers.length ≤ 26 then updateRow1 values headers else values

/-- Embedding of the `existing_file_ids` collection in
`process_pdf_workflow` (app.py 529-540): the non-empty values of the
`drive_file_id` column across the data rows; empty when the sheet or
the column is missing. -/
def existingFileIds (values : SheetValues) : List String :=
  match values with
  | [] => []
  | headers :: dataRows =>
      match idxOfKey "drive_file_id" headers with
      | none => []
      | some col => (dataRows.map (fun r => r.getD col "")).filter (fun v => v ≠ "")

/-- A data row matches the file: `len(row) > file_id_col and
row[file_id_col] == file_id`. -/
def matchesFid (col : Nat) (fid : String) (r : List String) : Bool :=
  decide (col < r.length) && decide (r.getD col "" = fid)

/-- 1-based sheet row numbers of the matching data rows, scanned in
order starting at row 2 (`enumerate(data_rows, 2)`). -/
def rowsToDelete (col : Nat) (fid : String) : Nat → List (List String) → List Nat
  | _, [] => []
  | i, r :: rs =>
      if matchesFid col fid r then i :: rowsToDelete col fid (i + 1) rs
      else rowsToDelete col fid (i + 1) rs

/-- Insertion into a descending-sorted list. -/
def insertDesc (x : Nat) : List Nat → List Nat
  | [] => [x]
  | y :: ys => if y ≤ x then x :: y :: ys else y :: insertDesc x ys

/-- Embedding of `rows_to_delete.sort(reverse=True)`: a descending sort. -/
def sortDesc : List Nat → List Nat
  | [] => []
  | x :: xs => insertDesc x (sortDesc xs)

/-- One `deleteDimension` request of the batched delete. -/
structure DeleteReq where
  sheetId : Nat
  startIndex : Nat
  endIndex : Nat
  deriving DecidableEq

/-- The batched delete request list built by `_replace_rows_for_file`
(app.py 786-799 / mbapp.py 829-843): collect the matching 1-based row
numbers, sort them descending, and emit for each the 0-indexed
row range `[i - 1, i)`. -/
def deleteRequests (values : SheetValues) (fid : String) (sid : Nat) : List DeleteReq :=
  match values with
  | [] => []
  | headers :: dataRows =>
      match idxOfKey "drive_file_id" headers with
      | none => []
      | some col =>
          (sortDesc (rowsToDelete col fid 2 dataRows)).map
            (fun i => { sheetId := sid, startIndex := i - 1, endIndex := i })

/-- The backend append with its bounded retry loop
(`_append_to_google_sheet`): `appendOk` abstracts "one of the three
attempts succeeded". On success the rows are appended at the bottom; on
failure the sheet is unchanged and `False` is returned (the callers
ignore it). -/
def appendOp (appendOk : Bool) (values newRows : SheetValues) : SheetValues :=
  if appendOk then values ++ newRows else values

/-- Embedding of `_replace_rows_for_file`, net effect on the sheet:
empty sheet or missing correlation column degrade to append-only;
otherwise the matching data rows are removed by the batched descending
delete and the new rows are appended. -/
def replaceRowsForFile (appendOk : Bool) (values : SheetValues) (fid : String)
    (newRows : SheetValues) : SheetValues :=
  match values with
  | [] => appendOp appendOk [] newRows
  | headers :: dataRows =>
      match idxOfKey "drive_file_id" headers with
      | none => appendOp appendOk (headers :: dataRows) newRows
      | some col =>
          appendOp appendOk
            (headers :: dataRows.filter (fun r => !matchesFid col fid r)) newRows

/-- The header-update decision of `_save_to_sheets` (lines 681-690):
with no existing headers, write the reconciled list; with existing ones,
write only when columns were added; otherwise leave the sheet as is. -/
def saveHeadersStep (values : SheetValues) (allH : List String) : SheetValues :=
  if getSheetHeaders values = [] then updateHeadersOp values allH
  else if (getSheetHeaders values).length < allH.length then updateHeadersOp values allH
  else values

/-- The union of keys over the rows being written, as the code feeds it
to `set().union`. -/
def allRowKeys (rows : List Row) : List String := (rows.map rowKeys).flatten

/-- Embedding of `_save_to_sheets`: read the (range-bounded) headers,
reconcile the schema, update row 1 when columns were added or the sheet
had no headers, materialize the rows against the reconciled header order
(`row.get(h, "")`), and replace the file's rows. The iteration order of
`list(set().union(*(row.keys() for row in rows)))` is the `order`
parameter — Python string hashing makes it an environment input. -/
def saveToSheets (order : List String → List String) (appendOk : Bool)
    (values : SheetValues) (rows : List Row) (fid : String) : SheetValues :=
  if rows = [] then values
  else
    replaceRowsForFile appendOk
      (saveHeadersStep values
        (reconcileHeaders (getSheetHeaders values) (order (allRowKeys rows))))
      fid
      (rows.map (fun r =>
        (reconcileHeaders (getSheetHeaders values) (order (allRowKeys rows))).map
          (fun h => rowGet r h)))

example :
    saveToSheets firstDedup true
      [["drive_file_id", "qty"], ["X", "1"], ["Y", "2"], ["X", "3"]]
      [[("qty", "9"), ("drive_file_id", "X")]] "X" =
      [["drive_file_id", "qty"], ["Y", "2"], ["X", "9"]] := by
  decide

/-- A possible iteration order of a Python set holding the elements of
`l`: a duplicate-free enumeration of exactly those elements. -/
def ValidSetOrder (order : List String → List String) : Prop :=
  ∀ l, (order l).Nodup ∧ ∀ x, x ∈ order l ↔ x ∈ l

/-- The insertion-order enumeration — one admissible set order. -/
def pyOrderIns : List String → List String := firstDedup

/-- The reversed enumeration — another admissible set order. -/
def pyOrderRev : List String → List String := fun l => (firstDedup l).reverse

/-! ## Lemmas about header reconciliation -/

theorem foldl_append_absent (l : List String) : ∀ acc : List String,
    l.foldl (fun a h => if h ∈ a then a else a ++ [h]) acc = acc ++ appendNew acc l := by
  induction l with
  | nil => intro acc; simp [appendNew]
  | cons h t ih =>
      intro acc
      by_cases hm : h ∈ acc
      · simp only [List.foldl_cons, appendNew, if_pos hm]
        exact ih acc
      · simp only [List.foldl_cons, appendNew, if_neg hm]
        rw [ih (acc ++ [h])]
        simp

theorem mem_appendNew (k : String) (l : List String) : ∀ acc : List String,
    (k ∈ appendNew acc l ↔ k ∈ l ∧ k ∉ acc) := by
  induction l with
  | nil => intro acc; simp [appendNew]
  | cons h t ih =>
      intro acc
      by_cases hm : h ∈ acc
      · simp only [appendNew, if_pos hm]
        rw [ih acc]
        constructor
        · rintro ⟨hk, hna⟩
          exact ⟨List.mem_cons_of_mem h hk, hna⟩
        · rintro ⟨hk, hna⟩
          rcases List.mem_cons.mp hk with rfl | hk
          · exact absurd hm hna
          · exact ⟨hk, hna⟩
      · simp only [appendNew, if_neg hm]
        constructor
        · intro hk
          rcases List.mem_cons.mp hk with rfl | hk
          · exact ⟨List.mem_cons_self k t, hm⟩
          · obtain ⟨hkt, hkn⟩ := (ih _).mp hk
            exact ⟨List.mem_cons_of_mem _ hkt,
              fun hc => hkn (List.mem_append_left _ hc)⟩
        · rintro ⟨hk, hna⟩
          by_cases hkh : k = h
          · subst hkh
            exact List.mem_cons_self k _
          · rcases List.mem_cons.mp hk with rfl | hkt
            · exact absurd rfl hkh
            · refine List.mem_cons_of_mem _ ((ih _).mpr ⟨hkt, ?_⟩)
              intro hc
              rcases List.mem_append.mp hc with hc | hc
              · exact hna hc
              · exact hkh (List.mem_singleton.mp hc)

theorem nodup_appendNew (l : List String) : ∀ acc : List String,
    (appendNew acc l).Nodup := by
  induction l with
  | nil => intro acc; simp [appendNew]
  | cons h t ih =>
      intro acc
      by_cases hm : h ∈ acc
      · simp only [appendNew, if_pos hm]
        exact ih acc
      · simp only [appendNew, if_neg hm]
        refine List.nodup_cons.mpr ⟨?_, ih _⟩
        intro hc
        exact ((mem_appendNew h t _).mp hc).2
          (List.mem_append_right _ (List.mem_singleton.mpr rfl))

theorem validSetOrder_pyOrderIns : ValidSetOrder pyOrderIns := by
  intro l
  refine ⟨nodup_appendNew l [], fun x => ?_⟩
  simpa using mem_appendNew x l []

theorem validSetOrder_pyOrderRev : ValidSetOrder pyOrderRev := by
  intro l
  constructor
  · exact List.nodup_reverse.mpr (nodup_appendNew l [])
  · intro x
    rw [pyOrderRev, List.mem_reverse]
    simpa using mem_appendNew x l []

theorem reconcileHeaders_eq_append (existing newH : List String) (h : existing ≠ []) :
    reconcileHeaders existing newH = existing ++ appendNew existing newH := by
  rw [reconcileHeaders, if_neg h, foldl_append_absent]

/-! ### Claim C5 -/

/-- C5 amended: for every admissible set-iteration order, the reconciled
header list is the existing headers followed by exactly those keys of
the rows being written that are absent from the existing headers, each
appended once — but the relative order of those appended keys is the
(hash-dependent) set-iteration order, not necessarily the order in which
new keys are first encountered across the rows. -/
theorem reconcileHeaders_appends_new_keys (order : List String → List String)
    (hvalid : ValidSetOrder order) (existing : List String) (rows : List Row) :
    ∃ app, reconcileHeaders existing (order (allRowKeys rows)) = existing ++ app ∧
      app.Nodup ∧
      ∀ k, k ∈ app ↔ k ∈ allRowKeys rows ∧ k ∉ existing := by
  by_cases hex : existing = []
  · subst hex
    refine ⟨order (allRowKeys rows), by simp [reconcileHeaders], (hvalid _).1, fun k => ?_⟩
    simp [(hvalid _).2 k]
  · refine ⟨appendNew existing (order (allRowKeys rows)),
      reconcileHeaders_eq_append _ _ hex, nodup_appendNew _ _, fun k => ?_⟩
    rw [mem_appendNew]
    constructor
    · rintro ⟨hk, hna⟩
      exact ⟨((hvalid _).2 k).mp hk, hna⟩
    · rintro ⟨hk, hna⟩
      exact ⟨((hvalid _).2 k).mpr hk, hna⟩

/-- Modelled from the spec: the reconciled header list the claim
describes — existing headers, then the new keys absent from them in the
relative order in which they are first encountered across the rows. -/
def specReconcile (existing : List String) (rows : List Row) : List String :=
  existing ++ (firstDedup (allRowKeys rows)).filter (fun k => k ∉ existing)

/-- One row with keys `a`, `b` in that encounter order. -/
def c5rows : List Row := [[("a", "1"), ("b", "2")]]

/-- C5 counterexample: under the (admissible) reversed set-iteration
order the code reconciles the empty header list to `["b", "a"]`, while
the claim's first-encounter order demands `["a", "b"]` — the claim's
ordering statement does not hold of the code, whose append order is
Python's hash-dependent set iteration order. -/
theorem reconcileHeaders_order_counterexample :
    ValidSetOrder pyOrderRev ∧
    reconcileHeaders [] (pyOrderRev (allRowKeys c5rows)) ≠ specReconcile [] c5rows := by
  refine ⟨validSetOrder_pyOrderRev, ?_⟩
  decide

/-- C5 witness: the amended theorem applied at the insertion-order set
enumeration, one existing header, and the concrete rows `c5rows`. -/
theorem reconcileHeaders_appends_new_keys_witness :
    ∃ app, reconcileHeaders ["drive_file_id"] (pyOrderIns (allRowKeys c5rows)) =
        ["drive_file_id"] ++ app ∧
      app.Nodup ∧
      ∀ k, k ∈ app ↔ k ∈ allRowKeys c5rows ∧ k ∉ ["drive_file_id"] :=
  reconcileHeaders_appends_new_keys pyOrderIns validSetOrder_pyOrderIns
    ["drive_file_id"] c5rows

/-! ## Lemmas about the descending delete batch -/

theorem mem_insertDesc (x z : Nat) (l : List Nat) :
    z ∈ insertDesc x l ↔ z = x ∨ z ∈ l := by
  induction l with
  | nil => simp [insertDesc]
  | cons y ys ih =>
      by_cases h : y ≤ x
      · simp only [insertDesc, if_pos h, List.mem_cons]
      · simp only [insertDesc, if_neg h, List.mem_cons, ih]
        tauto

theorem pairwise_ge_insertDesc (x : Nat) (l : List Nat)
    (h : l.Pairwise (· ≥ ·)) : (insertDesc x l).Pairwise (· ≥ ·) := by
  induction l with
  | nil => simp [insertDesc]
  | cons y ys ih =>
      rcases List.pairwise_cons.mp h with ⟨hy, hys⟩
      by_cases hxy : y ≤ x
      · simp only [insertDesc, if_pos hxy]
        refine List.pairwise_cons.mpr ⟨?_, h⟩
        intro z hz
        rcases List.mem_cons.mp hz with rfl | hz
        · exact hxy
        · exact le_trans (hy z hz) hxy
      · simp only [insertDesc, if_neg hxy]
        refine List.pairwise_cons.mpr ⟨?_, ih hys⟩
        intro z hz
        rcases (mem_insertDesc x z ys).mp hz with rfl | hz
        · omega
        · exact hy z hz

theorem perm_insertDesc (x : Nat) (l : List Nat) : (insertDesc x l).Perm (x :: l) := by
  induction l with
  | nil => rfl
  | cons y ys ih =>
      by_cases h : y ≤ x
      · simp [insertDesc, h]
      · simp only [insertDesc, if_neg h]
        exact (ih.cons y).trans (List.Perm.swap x y ys)

theorem sortDesc_perm (l : List Nat) : (sortDesc l).Perm l := by
  induction l with
  | nil => rfl
  | cons x xs ih =>
      exact (perm_insertDesc x (sortDesc xs)).trans (ih.cons x)

theorem pairwise_ge_sortDesc (l : List Nat) : (sortDesc l).Pairwise (· ≥ ·) := by
  induction l with
  | nil => simp [sortDesc]
  | cons x xs ih => exact pairwise_ge_insertDesc x (sortDesc xs) ih

theorem rowsToDelete_le (col : Nat) (fid : String) :
    ∀ (rs : List (List String)) (i j : Nat), j ∈ rowsToDelete col fid i rs → i ≤ j := by
  intro rs
  induction rs with
  | nil => intro i j h; simp [rowsToDelete] at h
  | cons r rest ih =>
      intro i j h
      by_cases hm : matchesFid col fid r
      · rw [rowsToDelete, if_pos hm] at h
        rcases List.mem_cons.mp h with rfl | h
        · exact le_refl j
        · exact le_trans (Nat.le_succ i) (ih (i + 1) j h)
      · rw [rowsToDelete, if_neg hm] at h
        exact le_trans (Nat.le_succ i) (ih (i + 1) j h)

theorem rowsToDelete_pairwise_lt (col : Nat) (fid : String) :
    ∀ (rs : List (List String)) (i : Nat),
      (rowsToDelete col fid i rs).Pairwise (· < ·) := by
  intro rs
  induction rs with
  | nil => intro i; simp [rowsToDelete]
  | cons r rest ih =>
      intro i
      by_cases hm : matchesFid col fid r
      · rw [rowsToDelete, if_pos hm]
        refine List.pairwise_cons.mpr ⟨?_, ih (i + 1)⟩
        intro j hj
        exact lt_of_lt_of_le (Nat.lt_succ_self i) (rowsToDelete_le col fid rest (i + 1) j hj)
      · rw [rowsToDelete, if_neg hm]
        exact ih (i + 1)

theorem pairwise_desc_pred (l : List Nat) (hge : l.Pairwise (· ≥ ·))
    (hnd : l.Nodup) (h2 : ∀ x ∈ l, 2 ≤ x) :
    l.Pairwise (fun a b => b - 1 < a - 1) := by
  induction l with
  | nil => simp
  | cons x xs ih =>
      rcases List.pairwise_cons.mp hge with ⟨hx, hxs⟩
      rcases List.nodup_cons.mp hnd with ⟨hnx, hnxs⟩
      refine List.pairwise_cons.mpr
        ⟨?_, ih hxs hnxs (fun z hz => h2 z (List.mem_cons_of_mem _ hz))⟩
      intro z hz
      have hgez := hx z hz
      have hne : z ≠ x := fun hc => hnx (hc ▸ hz)
      have h2z := h2 z (List.mem_cons_of_mem _ hz)
      omega

theorem insertDesc_eq_append (x : Nat) (l : List Nat) (h : ∀ y ∈ l, x < y) :
    insertDesc x l = l ++ [x] := by
  induction l with
  | nil => rfl
  | cons y ys ih =>
      have hxy : ¬ y ≤ x := by
        have := h y (List.mem_cons_self y ys)
        omega
      simp only [insertDesc, if_neg hxy]
      rw [ih (fun z hz => h z (List.mem_cons_of_mem _ hz))]
      rfl

/-- The semantics of one `deleteDimension` request: remove the 0-indexed
row range `[startIndex, endIndex)` from the current grid. Subsequent
requests see the shifted grid. -/
def applyDeleteReq (g : SheetValues) (q : DeleteReq) : SheetValues :=
  g.take q.startIndex ++ g.drop q.endIndex

theorem deleteFold_filter (col : Nat) (fid : String) (sid : Nat) :
    ∀ (rs : List (List String)) (pre : SheetValues),
      List.foldl applyDeleteReq (pre ++ rs)
        ((sortDesc (rowsToDelete col fid (pre.length + 1) rs)).map
          (fun i => ({ sheetId := sid, startIndex := i - 1, endIndex := i } : DeleteReq))) =
      pre ++ rs.filter (fun r => !matchesFid col fid r) := by
  intro rs
  induction rs with
  | nil => intro pre; simp [rowsToDelete, sortDesc]
  | cons r rest ih =>
      intro pre
      have hpre : pre ++ r :: rest = (pre ++ [r]) ++ rest := by simp
      have hcnt : pre.length + 1 + 1 = (pre ++ [r]).length + 1 := by simp
      by_cases hm : matchesFid col fid r
      · rw [rowsToDelete, if_pos hm]
        have hgt : ∀ y ∈ sortDesc (rowsToDelete col fid (pre.length + 1 + 1) rest),
            pre.length + 1 < y := by
          intro y hy
          have := rowsToDelete_le col fid rest (pre.length + 1 + 1) y
            ((sortDesc_perm _).mem_iff.mp hy)
          omega
        simp only [sortDesc]
        rw [insertDesc_eq_append _ _ hgt, List.map_append, List.foldl_append,
          hpre, hcnt, ih (pre ++ [r])]
        simp only [List.map_cons, List.map_nil, List.foldl_cons, List.foldl_nil]
        rw [applyDeleteReq]
        have hstart : pre.length + 1 - 1 = pre.length := by omega
        have htake : (((pre ++ [r]) ++ rest.filter (fun r => !matchesFid col fid r)).take
            pre.length) = pre := by
          rw [List.append_assoc]
          have : ([r] ++ rest.filter (fun r => !matchesFid col fid r)) =
              r :: rest.filter (fun r => !matchesFid col fid r) := rfl
          rw [this]
          exact List.take_left pre _
        have hdrop : (((pre ++ [r]) ++ rest.filter (fun r => !matchesFid col fid r)).drop
            (pre.length + 1)) = rest.filter (fun r => !matchesFid col fid r) := by
          have hlen : pre.length + 1 = (pre ++ [r]).length := by simp
          rw [hlen]
          exact List.drop_left _ _
        simp only [hstart, htake, hdrop]
        rw [List.filter_cons, hm]
        simp
      · have hm' : matchesFid col fid r = false := by
          revert hm; cases matchesFid col fid r <;> simp
        rw [rowsToDelete, if_neg hm]
        rw [hpre, hcnt, ih (pre ++ [r])]
        rw [List.filter_cons, hm']
        simp

/-- Applying the batched delete requests to the full grid (header row at
index 0, data rows from index 1), with real index-shifting semantics,
removes exactly the data rows whose correlation cell matches the file id
— sound only because the requests were ordered by descending start index
(deleting low-to-high would shift subsequent indices). This justifies
the net-effect `filter` used in `replaceRowsForFile`. -/
theorem applyDeleteRequests_removes_matching (h : List String)
    (dataRows : List (List String)) (fid : String) (sid col : Nat)
    (hidx : idxOfKey "drive_file_id" h = some col) :
    List.foldl applyDeleteReq (h :: dataRows) (deleteRequests (h :: dataRows) fid sid) =
      h :: dataRows.filter (fun r => !matchesFid col fid r) := by
  simp only [deleteRequests, hidx]
  have hfold := deleteFold_filter col fid sid dataRows [h]
  simpa using hfold

/-! ### Claim C3 -/

/-- C3: however the matching data rows are distributed, the batched
delete request list encodes its row ranges in strictly descending order
of `startIndex` (so the highest-numbered row is deleted first), each
range spanning exactly one row (`endIndex = startIndex + 1`) on the
requested tab. -/
theorem deleteRequests_strictly_descending (values : SheetValues) (fid : String)
    (sid : Nat) :
    (deleteRequests values fid sid).Pairwise
        (fun a b => b.startIndex < a.startIndex) ∧
    ∀ q ∈ deleteRequests values fid sid,
      q.endIndex = q.startIndex + 1 ∧ q.sheetId = sid := by
  cases values with
  | nil => simp [deleteRequests]
  | cons headers dataRows =>
      cases hidx : idxOfKey "drive_file_id" headers with
      | none => simp [deleteRequests, hidx]
      | some col =>
          have hperm := sortDesc_perm (rowsToDelete col fid 2 dataRows)
          have hlt := rowsToDelete_pairwise_lt col fid dataRows 2
          have hnd : (sortDesc (rowsToDelete col fid 2 dataRows)).Nodup :=
            hperm.nodup_iff.mpr (hlt.imp Nat.ne_of_lt)
          have h2 : ∀ x ∈ sortDesc (rowsToDelete col fid 2 dataRows), 2 ≤ x := by
            intro x hx
            exact rowsToDelete_le col fid dataRows 2 x (hperm.mem_iff.mp hx)
          constructor
          · simp only [deleteRequests, hidx]
            rw [List.pairwise_map]
            exact pairwise_desc_pred _ (pairwise_ge_sortDesc _) hnd h2
          · intro q hq
            simp only [deleteRequests, hidx] at hq
            rcases List.mem_map.mp hq with ⟨i, hi, rfl⟩
            have := h2 i hi
            exact ⟨by simp; omega, rfl⟩

example :
    deleteRequests
      [["drive_file_id"], ["X"], ["a"], ["b"], ["X"], ["c"], ["X"]] "X" 7 =
      [⟨7, 6, 7⟩, ⟨7, 4, 5⟩, ⟨7, 1, 2⟩] := by
  decide

/-! ## Lemmas about header-row evolution -/

theorem updateHeadersOp_extend (h : List String) (data : SheetValues)
    (app : List String) :
    ∃ t, updateHeadersOp (h :: data) (h.take 26 ++ app) = (h ++ t) :: data := by
  by_cases hle : (h.take 26 ++ app).length ≤ 26
  · rw [updateHeadersOp, if_pos hle]
    simp only [updateRow1]
    by_cases hlen : h.length ≤ 26
    · have htake : h.take 26 = h := List.take_of_length_le hlen
      rw [htake]
      refine ⟨app, ?_⟩
      have hdrop : h.drop (h ++ app).length = [] :=
        List.drop_eq_nil_of_le (by simp)
      rw [hdrop]
      simp
    · have h26 : (h.take 26).length = 26 := by
        rw [List.length_take]
        omega
      have happ : app = [] := by
        rw [List.length_append, h26] at hle
        exact List.length_eq_zero.mp (by omega)
      subst happ
      refine ⟨[], ?_⟩
      rw [List.append_nil, List.append_nil]
      have : h.take 26 ++ h.drop (h.take 26).length = h := by
        rw [h26]
        exact List.take_append_drop 26 h
      rw [this]
  · rw [updateHeadersOp, if_neg hle]
    exact ⟨[], by simp⟩

theorem saveHeadersStep_extend (h : List String) (data : SheetValues)
    (app : List String) (hne : h.take 26 ≠ []) :
    ∃ t, saveHeadersStep (h :: data) (h.take 26 ++ app) = (h ++ t) :: data := by
  have hgx : getSheetHeaders (h :: data) = h.take 26 := rfl
  rw [saveHeadersStep, hgx, if_neg hne]
  by_cases hlt : (h.take 26).length < (h.take 26 ++ app).length
  · rw [if_pos hlt]
    exact updateHeadersOp_extend h data app
  · rw [if_neg hlt]
    exact ⟨[], by simp⟩

theorem row1_replaceRowsForFile_cons (ok : Bool) (h1 : List String)
    (d1 : SheetValues) (fid : String) (newRows : SheetValues) :
    row1 (replaceRowsForFile ok (h1 :: d1) fid newRows) = h1 := by
  cases hidx : idxOfKey "drive_file_id" h1 with
  | none => cases ok <;> simp [replaceRowsForFile, hidx, appendOp, row1]
  | some col => cases ok <;> simp [replaceRowsForFile, hidx, appendOp, row1]

/-- One `_save_to_sheets` call only ever extends the header row. -/
theorem row1_saveToSheets (order : List String → List String) (ok : Bool)
    (values : SheetValues) (rows : List Row) (fid : String) :
    ∃ t, row1 (saveToSheets order ok values rows fid) = row1 values ++ t := by
  by_cases hrows : rows = []
  · rw [saveToSheets, if_pos hrows]
    exact ⟨[], by simp⟩
  · rw [saveToSheets, if_neg hrows]
    cases values with
    | nil => exact ⟨_, (List.nil_append _).symm⟩
    | cons h data =>
        by_cases hexnil : h.take 26 = []
        · have hh : h = [] := by simpa using hexnil
          subst hh
          exact ⟨_, (List.nil_append _).symm⟩
        · have hex : getSheetHeaders (h :: data) = h.take 26 := rfl
          obtain ⟨app, happ⟩ : ∃ app,
              reconcileHeaders (getSheetHeaders (h :: data))
                (order (allRowKeys rows)) = h.take 26 ++ app := by
            rw [hex]
            exact ⟨appendNew (h.take 26) (order (allRowKeys rows)),
              reconcileHeaders_eq_append _ _ hexnil⟩
          rw [happ]
          obtain ⟨t, ht⟩ := saveHeadersStep_extend h data app hexnil
          rw [ht, row1_replaceRowsForFile_cons]
          exact ⟨t, rfl⟩

/-- One sheet write: its set-iteration order, append outcome, rows and
file id. -/
structure WriteOp where
  order : List String → List String
  ok : Bool
  rows : List Row
  fid : String

/-- A sequence of `_save_to_sheets` calls applied in order. -/
def applyWrites (ws : List WriteOp) (values : SheetValues) : SheetValues :=
  ws.foldl (fun v w => saveToSheets w.order w.ok v w.rows w.fid) values

/-! ### Claim C4 -/

/-- C4: for every sequence of sheet writes, the header row before the
sequence is a prefix of the header row after it — existing columns are
never reordered or removed, new columns only ever appear appended at the
end. -/
theorem schema_monotone (ws : List WriteOp) (values : SheetValues) :
    ∃ t, row1 (applyWrites ws values) = row1 values ++ t := by
  induction ws generalizing values with
  | nil => exact ⟨[], by simp [applyWrites]⟩
  | cons w ws ih =>
      obtain ⟨t1, h1⟩ := row1_saveToSheets w.order w.ok values w.rows w.fid
      obtain ⟨t2, h2⟩ := ih (saveToSheets w.order w.ok values w.rows w.fid)
      refine ⟨t1 ++ t2, ?_⟩
      have : applyWrites (w :: ws) values =
          applyWrites ws (saveToSheets w.order w.ok values w.rows w.fid) := rfl
      rw [this, h2, h1, List.append_assoc]

/-! ## The PDF workflow (`process_pdf_workflow`, app.py 485-592) -/

/-- A candidate PDF file: its Drive id and name, whether the download
returns non-empty bytes, and the outcome of the extraction call
(`none` embeds an exception raised by `agent.extract`, which the
per-item handler catches). -/
structure PdfFile where
  id : String
  name : String
  downloadOk : Bool
  extract : Option Payload
  deriving DecidableEq

/-- The state the PDF workflow mutates: the target sheet and the
processed-PDF id set (persisted after every mutation). -/
structure PdfState where
  sheet : SheetValues
  processedPdfs : List String
  deriving DecidableEq

/-- The rows the extraction-and-normalization step produces for a file. -/
def procRows (f : PdfFile) (now : String) : List Row :=
  match f.extract with
  | none => []
  | some p => processExtractedData p f.name f.id now

/-- One iteration of the `for i, file in enumerate(pdf_files)` loop
(app.py 543-582): skip ids in the local processed set; skip ids found in
the sheet snapshot taken at workflow start; skip failed downloads; an
extraction exception is caught and skips the item; zero extracted rows
skip the item; otherwise save to the sheet and then add the id to the
processed set and persist the state file. -/
def pdfStep (order : List String → List String) (appendOk : Bool) (now : String)
    (existingIds : List String) (st : PdfState) (f : PdfFile) : PdfState :=
  if f.id ∈ st.processedPdfs then st
  else if f.id ∈ existingIds then st
  else if !f.downloadOk then st
  else
    match f.extract with
    | none => st
    | some p =>
        let rows := processExtractedData p f.name f.id now
        if rows = [] then st
        else
          { sheet := saveToSheets order appendOk st.sheet rows f.id,
            processedPdfs := st.processedPdfs ++ [f.id] }

/-- The per-file loop with a fixed `existing_file_ids` snapshot. -/
def foldPdfSteps (order : List String → List String) (appendOk : Bool)
    (now : String) (existingIds : List String) (st : PdfState)
    (files : List PdfFile) : PdfState :=
  files.foldl (pdfStep order appendOk now existingIds) st

/-- A whole document-pipeline run: the `existing_file_ids` snapshot is
taken from the sheet once (app.py 529-540), then the loop runs. -/
def runPdfWorkflow (order : List String → List String) (appendOk : Bool)
    (now : String) (files : List PdfFile) (st : PdfState) : PdfState :=
  foldPdfSteps order appendOk now (existingFileIds st.sheet) st files

/-! ### Claim C1 -/

/-- A document whose download succeeds and whose extraction yields one
line item. -/
def c1File : PdfFile :=
  { id := "f1", name := "doc1.pdf", downloadOk := true,
    extract := some { items := some [[("qty", "5")]], fields := [] } }

/-- The pipeline run on that one file from an empty sheet, with an
append backend that fails all three attempts (`appendOk = false`). -/
def c1Run : PdfState :=
  runPdfWorkflow pyOrderIns false "2026-10-12 00:00:00" [c1File] ⟨[], []⟩

/-- C1 counterexample: with the sheet append failing (all three retry
attempts), `_append_to_google_sheet` returns `False`,
`_replace_rows_for_file` propagates it, and `_save_to_sheets` swallows
it — yet `process_pdf_workflow` still adds the document id to the
processed-PDF set and persists it. After the run the id is committed
while the sheet holds no data row at all (only the header row written by
`_update_headers`): the id was committed although its rows were never
committed to the sheet. -/
theorem processed_without_commit_counterexample :
    c1Run.processedPdfs = ["f1"] ∧ c1Run.sheet.tail = [] ∧ c1Run.sheet.length = 1 := by
  decide

/-- C1 amended: the orchestrator adds the item's id to the processed set
whenever the item passes its guards and extraction yields at least one
row — for every append outcome alike, because every failure inside
`_save_to_sheets` is caught and swallowed and the `False` returned by
the append helper is ignored. A failed sheet write therefore still marks
the document processed. -/
theorem pdfStep_marks_processed_regardless_of_append
    (order : List String → List String) (appendOk : Bool) (now : String)
    (existingIds : List String) (st : PdfState) (f : PdfFile) (p : Payload)
    (h1 : f.id ∉ st.processedPdfs) (h2 : f.id ∉ existingIds)
    (h3 : f.downloadOk = true) (h4 : f.extract = some p)
    (h5 : processExtractedData p f.name f.id now ≠ []) :
    (pdfStep order appendOk now existingIds st f).processedPdfs =
      st.processedPdfs ++ [f.id] := by
  simp [pdfStep, h1, h2, h3, h4, h5]

/-- C1 witness: the amended theorem applied at the concrete file
`c1File` with the failing append backend, every hypothesis discharged by
computation. -/
theorem pdfStep_marks_processed_witness :
    (pdfStep pyOrderIns false "2026-10-12 00:00:00" [] ⟨[], []⟩ c1File).processedPdfs =
      [] ++ ["f1"] :=
  pdfStep_marks_processed_regardless_of_append pyOrderIns false "2026-10-12 00:00:00"
    [] ⟨[], []⟩ c1File { items := some [[("qty", "5")]], fields := [] }
    (by decide) (by decide) (by decide) (by decide) (by decide)

/-! ## Lemmas towards idempotence of the PDF pipeline -/

theorem idxOfKey_append (k : String) (l t : List String) (i : Nat)
    (h : idxOfKey k l = some i) : idxOfKey k (l ++ t) = some i := by
  induction l generalizing i with
  | nil => simp [idxOfKey] at h
  | cons x xs ih =>
      simp only [List.cons_append, List.append_eq, idxOfKey] at h ⊢
      by_cases hx : x = k
      · rw [if_pos hx] at h ⊢
        exact h
      · rw [if_neg hx] at h ⊢
        cases hxs : idxOfKey k xs with
        | none => rw [hxs] at h; simp at h
        | some j =>
            rw [hxs] at h
            simp only [Option.map_some'] at h
            rw [ih j hxs]
            simpa using h

theorem mem_existingFileIds_intro (h1 : List String) (d1 : SheetValues) (col : Nat)
    (v : String) (r : List String) (hidx : idxOfKey "drive_file_id" h1 = some col)
    (hr : r ∈ d1) (hrv : r.getD col "" = v) (hvne : v ≠ "") :
    v ∈ existingFileIds (h1 :: d1) := by
  simp only [existingFileIds, hidx]
  exact List.mem_filter.mpr ⟨List.mem_map.mpr ⟨r, hr, hrv⟩, by simpa using hvne⟩

theorem mem_existingFileIds_elim (values : SheetValues) (v : String)
    (hv : v ∈ existingFileIds values) :
    ∃ h1 d1 col r, values = h1 :: d1 ∧ idxOfKey "drive_file_id" h1 = some col ∧
      r ∈ d1 ∧ r.getD col "" = v ∧ v ≠ "" := by
  cases values with
  | nil => simp [existingFileIds] at hv
  | cons h1 d1 =>
      cases hidx : idxOfKey "drive_file_id" h1 with
      | none => simp [existingFileIds, hidx] at hv
      | some col =>
          simp only [existingFileIds, hidx] at hv
          obtain ⟨hmem, hvne⟩ := List.mem_filter.mp hv
          rcases List.mem_map.mp hmem with ⟨r, hr, hrv⟩
          exact ⟨h1, d1, col, r, rfl, hidx, hr, hrv, by simpa using hvne⟩

theorem matchesFid_eq_false_of_ne (col : Nat) (fid : String) (r : List String)
    (v : String) (hrv : r.getD col "" = v) (hne : v ≠ fid) :
    matchesFid col fid r = false := by
  have hd : decide (r.getD col "" = fid) = false := decide_eq_false (hrv ▸ hne)
  rw [matchesFid, hd, Bool.and_false]

theorem appendOp_false (values newRows : SheetValues) :
    appendOp false values newRows = values := rfl

theorem appendOp_true (values newRows : SheetValues) :
    appendOp true values newRows = values ++ newRows := rfl

/-- An id visible in the `drive_file_id` column survives a
`_save_to_sheets` call for a different file: the header row is only
extended (so the column index is stable), the delete removes only rows
matching the other file's id, and the append only adds rows. -/
theorem existingFileIds_saveToSheets (order : List String → List String) (ok : Bool)
    (values : SheetValues) (rows : List Row) (fid v : String)
    (hv : v ∈ existingFileIds values) (hne : v ≠ fid) :
    v ∈ existingFileIds (saveToSheets order ok values rows fid) := by
  obtain ⟨h1, d1, col, r, rfl, hidx, hr, hrv, hvne⟩ := mem_existingFileIds_elim _ _ hv
  by_cases hrows : rows = []
  · rw [saveToSheets, if_pos hrows]
    exact hv
  · rw [saveToSheets, if_neg hrows]
    have hhne : h1.take 26 ≠ [] := by
      cases h1 with
      | nil => simp [idxOfKey] at hidx
      | cons x xs => simp
    have hex : getSheetHeaders (h1 :: d1) = h1.take 26 := rfl
    rw [hex, reconcileHeaders_eq_append _ _ hhne]
    obtain ⟨t, ht⟩ := saveHeadersStep_extend h1 d1
      (appendNew (h1.take 26) (order (allRowKeys rows))) hhne
    rw [ht]
    have hidx2 := idxOfKey_append "drive_file_id" h1 t col hidx
    simp only [replaceRowsForFile, hidx2]
    have hflt : r ∈ d1.filter (fun r => !matchesFid col fid r) :=
      List.mem_filter.mpr ⟨hr, by rw [matchesFid_eq_false_of_ne col fid r v hrv hne]; rfl⟩
    cases ok with
    | false =>
        rw [appendOp_false]
        exact mem_existingFileIds_intro (h1 ++ t) _ col v r hidx2 hflt hrv hvne
    | true =>
        rw [appendOp_true, List.cons_append]
        exact mem_existingFileIds_intro (h1 ++ t) _ col v r hidx2
          (List.mem_append_left _ hflt) hrv hvne

/-- Case analysis for one loop iteration: either the state is unchanged,
or the item is processed (its rows saved, its id appended). -/
theorem pdfStep_cases (order : List String → List String) (ok : Bool) (now : String)
    (e : List String) (st : PdfState) (f : PdfFile) :
    pdfStep order ok now e st f = st ∨
    (f.id ∉ st.processedPdfs ∧ f.id ∉ e ∧
      pdfStep order ok now e st f =
        { sheet := saveToSheets order ok st.sheet (procRows f now) f.id,
          processedPdfs := st.processedPdfs ++ [f.id] }) := by
  by_cases h1 : f.id ∈ st.processedPdfs
  · left; simp [pdfStep, h1]
  · by_cases h2 : f.id ∈ e
    · left; simp [pdfStep, h1, h2]
    · by_cases h3 : f.downloadOk
      · cases hx : f.extract with
        | none => left; simp [pdfStep, h1, h2, h3, hx]
        | some p =>
            by_cases h5 : processExtractedData p f.name f.id now = []
            · left; simp [pdfStep, h1, h2, h3, hx, h5]
            · right
              refine ⟨h1, h2, ?_⟩
              simp [pdfStep, h1, h2, h3, hx, h5, procRows]
      · left
        have h3' : f.downloadOk = false := by
          revert h3; cases f.downloadOk <;> simp
        simp [pdfStep, h1, h2, h3']

theorem foldPdfSteps_processed_mono (order : List String → List String) (ok : Bool)
    (now : String) (e : List String) :
    ∀ (files : List PdfFile) (st : PdfState),
      ∃ t, (foldPdfSteps order ok now e st files).processedPdfs =
        st.processedPdfs ++ t := by
  intro files
  induction files with
  | nil => intro st; exact ⟨[], by simp [foldPdfSteps]⟩
  | cons f fs ih =>
      intro st
      obtain ⟨t2, h2⟩ := ih (pdfStep order ok now e st f)
      have hstep : foldPdfSteps order ok now e st (f :: fs) =
          foldPdfSteps order ok now e (pdfStep order ok now e st f) fs := rfl
      rcases pdfStep_cases order ok now e st f with hc | ⟨_, _, hc⟩
      · exact ⟨t2, by rw [hstep, h2, hc]⟩
      · refine ⟨[f.id] ++ t2, ?_⟩
        rw [hstep, h2, hc]
        simp

theorem mem_processed_foldPdfSteps (order : List String → List String) (ok : Bool)
    (now : String) (e : List String) (files : List PdfFile) (st : PdfState)
    (x : String) (hx : x ∈ st.processedPdfs) :
    x ∈ (foldPdfSteps order ok now e st files).processedPdfs := by
  obtain ⟨t, ht⟩ := foldPdfSteps_processed_mono order ok now e files st
  rw [ht]
  exact List.mem_append_left _ hx

/-- The resumability invariant: an id is tracked when it is in the
processed set or visible in the sheet's correlation column. -/
def IdTracked (v : String) (st : PdfState) : Prop :=
  v ∈ st.processedPdfs ∨ v ∈ existingFileIds st.sheet

theorem pdfStep_preserves_tracked (order : List String → List String) (ok : Bool)
    (now : String) (e : List String) (st : PdfState) (f : PdfFile) (v : String)
    (h : IdTracked v st) : IdTracked v (pdfStep order ok now e st f) := by
  rcases pdfStep_cases order ok now e st f with hc | ⟨_, _, hc⟩
  · rw [hc]; exact h
  · rw [hc]
    rcases h with h | h
    · exact Or.inl (List.mem_append_left _ h)
    · by_cases hv : v = f.id
      · subst hv
        exact Or.inl (List.mem_append_right _ (by simp))
      · exact Or.inr
          (existingFileIds_saveToSheets order ok st.sheet (procRows f now) f.id v h hv)

theorem foldPdfSteps_preserves_tracked (order : List String → List String) (ok : Bool)
    (now : String) (e : List String) (v : String) :
    ∀ (files : List PdfFile) (st : PdfState), IdTracked v st →
      IdTracked v (foldPdfSteps order ok now e st files) := by
  intro files
  induction files with
  | nil => intro st h; exact h
  | cons f fs ih =>
      intro st h
      exact ih (pdfStep order ok now e st f)
        (pdfStep_preserves_tracked order ok now e st f v h)

/-- A listed file that passes the deterministic guards ends up in the
processed set. -/
theorem foldPdfSteps_processes (order : List String → List String) (ok : Bool)
    (now : String) (e : List String) (f : PdfFile) :
    ∀ (files : List PdfFile) (st : PdfState), f ∈ files → f.id ∉ e →
      f.downloadOk = true → procRows f now ≠ [] →
      f.id ∈ (foldPdfSteps order ok now e st files).processedPdfs := by
  intro files
  induction files with
  | nil =>
      intro st h
      simp at h
  | cons g gs ih =>
      intro st hmem hnid hdl hrows
      have hstep0 : foldPdfSteps order ok now e st (g :: gs) =
          foldPdfSteps order ok now e (pdfStep order ok now e st g) gs := rfl
      rw [hstep0]
      rcases List.mem_cons.mp hmem with rfl | hmem
      · by_cases h1 : f.id ∈ st.processedPdfs
        · apply mem_processed_foldPdfSteps
          rcases pdfStep_cases order ok now e st f with hc | ⟨_, _, hc⟩ <;> rw [hc]
          · exact h1
          · exact List.mem_append_left _ h1
        · obtain ⟨p, hp⟩ : ∃ p, f.extract = some p := by
            cases hx : f.extract with
            | none =>
                rw [procRows, hx] at hrows
                exact absurd rfl hrows
            | some p => exact ⟨p, rfl⟩
          have hrows' : processExtractedData p f.name f.id now ≠ [] := by
            rw [procRows, hp] at hrows
            exact hrows
          have hstep : (pdfStep order ok now e st f).processedPdfs =
              st.processedPdfs ++ [f.id] := by
            simp [pdfStep, h1, hnid, hdl, hp, hrows']
          apply mem_processed_foldPdfSteps
          rw [hstep]
          exact List.mem_append_right _ (by simp)
      · exact ih (pdfStep order ok now e st g) hmem hnid hdl hrows

theorem foldPdfSteps_id (order : List String → List String) (ok : Bool)
    (now : String) (e : List String) :
    ∀ (files : List PdfFile) (st : PdfState),
      (∀ f ∈ files, pdfStep order ok now e st f = st) →
      foldPdfSteps order ok now e st files = st := by
  intro files
  induction files with
  | nil => intro st _; rfl
  | cons g gs ih =>
      intro st hall
      have hg := hall g (List.mem_cons_self g gs)
      have hstep : foldPdfSteps order ok now e st (g :: gs) =
          foldPdfSteps order ok now e (pdfStep order ok now e st g) gs := rfl
      rw [hstep, hg]
      exact ih st (fun f hf => hall f (List.mem_cons_of_mem _ hf))

/-- The emptiness of the extracted rows does not depend on the run
timestamp: only the presence and length of the items list matter. -/
theorem procRows_eq_nil_iff (f : PdfFile) (now1 now2 : String) :
    procRows f now1 = [] ↔ procRows f now2 = [] := by
  cases hx : f.extract with
  | none => simp [procRows, hx]
  | some p =>
      simp only [procRows, hx, processExtractedData]
      cases hi : p.items with
      | none => simp
      | some items => cases items <;> simp

/-! ### Claim C2 -/

/-- C2: running the document pipeline twice in succession over the same
unchanged document set leaves the state of the first run exactly as it
was — the second run appends no rows (for any `drive_file_id`) and
changes no headers, whatever set-iteration orders, append outcomes and
timestamps the two runs see. Every file either was processed in the
first run (so its id is in the processed set and it is skipped), was
already in the sheet snapshot (it still is — deletions only remove rows
of files being rewritten), or fails the same deterministic
download/extraction/zero-rows guards again. -/
theorem pdf_pipeline_idempotent (o1 o2 : List String → List String)
    (ok1 ok2 : Bool) (now1 now2 : String) (files : List PdfFile) (st0 : PdfState) :
    runPdfWorkflow o2 ok2 now2 files (runPdfWorkflow o1 ok1 now1 files st0) =
      runPdfWorkflow o1 ok1 now1 files st0 := by
  rw [runPdfWorkflow]
  apply foldPdfSteps_id
  intro f hf
  by_cases h1 : f.id ∈ (runPdfWorkflow o1 ok1 now1 files st0).processedPdfs
  · simp [pdfStep, h1]
  · by_cases h2 : f.id ∈ existingFileIds (runPdfWorkflow o1 ok1 now1 files st0).sheet
    · simp [pdfStep, h1, h2]
    · by_cases h3 : f.downloadOk = true
      · by_cases h5 : procRows f now2 = []
        · cases hx : f.extract with
          | none => simp [pdfStep, h1, h2, h3, hx]
          | some p =>
              have h5' : processExtractedData p f.name f.id now2 = [] := by
                rw [procRows, hx] at h5
                exact h5
              simp [pdfStep, h1, h2, h3, hx, h5']
        · exfalso
          have h5' : procRows f now1 ≠ [] := fun hc =>
            h5 ((procRows_eq_nil_iff f now1 now2).mp hc)
          have hnid : f.id ∉ existingFileIds st0.sheet := by
            intro hc
            have htr : IdTracked f.id (runPdfWorkflow o1 ok1 now1 files st0) :=
              foldPdfSteps_preserves_tracked o1 ok1 now1 _ f.id files st0 (Or.inr hc)
            rcases htr with h | h
            · exact h1 h
            · exact h2 h
          exact h1 (foldPdfSteps_processes o1 ok1 now1 _ f files st0 hf hnid h3 h5')
      · have h3' : f.downloadOk = false := by
          revert h3; cases f.downloadOk <;> simp
        simp [pdfStep, h1, h2, h3']

end GrnSync
